/-
Verification of the pulp-dsp strided matrix/vector kernels.

The C sources are shallowly embedded: buffers become functions `ℕ → α`
(flat scalar index to value), `for` loops become structural recursion
processing the last iteration on the outside (so iteration 0 runs first),
and stores become pointwise function update.  Scalar arithmetic of the
32-bit float kernels is kept abstract (`Add`/`Mul`/`Sub`/`Zero`): the
claims about those kernels only concern which locations are written and
in which accumulation order, which hold for any realization of the four
operations.  The 16/32-bit integer kernels use `ℤ` with explicit wrapping.
-/
import Mathlib

/-- Pointwise store: the buffer `d` with value `v` written at flat index `k`. -/
def writeBuf {α : Type} (d : ℕ → α) (k : ℕ) (v : α) : ℕ → α :=
  fun j => if j = k then v else d j

theorem writeBuf_same {α : Type} (d : ℕ → α) (k : ℕ) (v : α) :
    writeBuf d k v k = v := by
  simp [writeBuf]

theorem writeBuf_other {α : Type} (d : ℕ → α) (k j : ℕ) (v : α) (h : j ≠ k) :
    writeBuf d k v j = d j := by
  simp [writeBuf, h]

section MatMultCmplxStride

variable {α : Type} [Add α] [Mul α] [Sub α] [Zero α]

/-- Inner `n` loop of `plp_mat_mult_cmplx_stride_f32s_xpulpv2`: the running
accumulator pair `(sum_re, sum_im)` after the first `n` iterations, with
`sum_re += a_re * b_re - a_im * b_im` and `sum_im += a_re * b_im + a_im * b_re`,
reading `a` at `(m * strideA + n) * 2 (+ 1)` and `b` at `(n * strideB + o) * 2 (+ 1)`. -/
def mmInner (A B : ℕ → α) (sA sB m o : ℕ) : ℕ → α × α
  | 0 => (0, 0)
  | n + 1 =>
    let s := mmInner A B sA sB m o n
    let a_re := A ((m * sA + n) * 2)
    let a_im := A ((m * sA + n) * 2 + 1)
    let b_re := B ((n * sB + o) * 2)
    let b_im := B ((n * sB + o) * 2 + 1)
    (s.1 + (a_re * b_re - a_im * b_im), s.2 + (a_re * b_im + a_im * b_re))

/-- Middle `o` loop of `plp_mat_mult_cmplx_stride_f32s_xpulpv2` for row `m`:
the first `O` columns are computed and stored at
`pDstC[(m * strideC + o) * 2]` (real) and `pDstC[(m * strideC + o) * 2 + 1]`
(imaginary). -/
def mmCols (A B : ℕ → α) (sA sB sC N m : ℕ) : ℕ → (ℕ → α) → (ℕ → α)
  | 0, d => d
  | o + 1, d =>
    let d' := mmCols A B sA sB sC N m o d
    let s := mmInner A B sA sB m o N
    writeBuf (writeBuf d' ((m * sC + o) * 2) s.1) ((m * sC + o) * 2 + 1) s.2

/-- Outer `m` loop of `plp_mat_mult_cmplx_stride_f32s_xpulpv2`: the first `M`
rows, each running the full column loop. -/
def mmRows (A B : ℕ → α) (sA sB sC N O : ℕ) : ℕ → (ℕ → α) → (ℕ → α)
  | 0, d => d
  | m + 1, d => mmCols A B sA sB sC N m O (mmRows A B sA sB sC N O m d)

/-- Kernel `plp_mat_mult_cmplx_stride_f32s_xpulpv2` (BASIC_VERSION triple loop):
given the two source buffers, the dimensions `M`, `N`, `O`, the three row
strides and the initial contents of the destination buffer, returns the final
contents of the destination buffer.  The source buffers are only ever read. -/
def plp_mat_mult_cmplx_stride_f32s_xpulpv2 (A B : ℕ → α)
    (M N O sA sB sC : ℕ) (d : ℕ → α) : ℕ → α :=
  mmRows A B sA sB sC N O M d

/-- Real part of one complex product, in the spec's words:
`a_re * b_re - a_im * b_im`. -/
def cmplxMulRe (ar ai br bi : α) : α := ar * br - ai * bi

/-- Imaginary part of one complex product, in the spec's words:
`a_re * b_im + a_im * b_re`. -/
def cmplxMulIm (ar ai br bi : α) : α := ar * bi + ai * br

/-- Reference product entry, written from the spec: the sum over `n < N` of
the complex products `A[m,n] * B[n,o]`, accumulated left to right starting
from `(0, 0)`, with the element `A[m,n]` addressed at flat offset
`(m * strideA + n) * 2` (+0 real, +1 imaginary) and `B[n,o]` at
`(n * strideB + o) * 2`. -/
def matMulCmplxRefEntry (A B : ℕ → α) (sA sB m o N : ℕ) : α × α :=
  (List.range N).foldl
    (fun s n =>
      (s.1 + cmplxMulRe (A ((m * sA + n) * 2)) (A ((m * sA + n) * 2 + 1))
          (B ((n * sB + o) * 2)) (B ((n * sB + o) * 2 + 1)),
       s.2 + cmplxMulIm (A ((m * sA + n) * 2)) (A ((m * sA + n) * 2 + 1))
          (B ((n * sB + o) * 2)) (B ((n * sB + o) * 2 + 1))))
    (0, 0)

theorem mmInner_eq_ref (A B : ℕ → α) (sA sB m o : ℕ) :
    ∀ N, mmInner A B sA sB m o N = matMulCmplxRefEntry A B sA sB m o N := by
  intro N
  induction N with
  | zero => rfl
  | succ n ih =>
    rw [mmInner, ih, matMulCmplxRefEntry, matMulCmplxRefEntry,
      List.range_succ, List.foldl_append]
    rfl

theorem strideIndex_lt {m m' o o' O sC : ℕ} (hmm : m < m') (ho : o < O)
    (hO : O ≤ sC) : m * sC + o < m' * sC + o' := by
  calc m * sC + o < m * sC + sC := by omega
    _ = (m + 1) * sC := (Nat.succ_mul m sC).symm
    _ ≤ m' * sC := Nat.mul_le_mul_right sC hmm
    _ ≤ m' * sC + o' := Nat.le_add_right _ _

theorem strideIndex_inj {m m' o o' O sC : ℕ} (ho : o < O) (ho' : o' < O)
    (hO : O ≤ sC) (h : m * sC + o = m' * sC + o') : m = m' ∧ o = o' := by
  rcases Nat.lt_trichotomy m m' with h1 | h1 | h1
  · exact absurd h (Nat.ne_of_lt (strideIndex_lt h1 ho hO))
  · subst h1
    omega
  · exact absurd h.symm (Nat.ne_of_lt (strideIndex_lt h1 ho' hO))

theorem mmCols_frame (A B : ℕ → α) (sA sB sC N m : ℕ) (O : ℕ) (d : ℕ → α)
    (k : ℕ) (h : ∀ o < O, k ≠ (m * sC + o) * 2 ∧ k ≠ (m * sC + o) * 2 + 1) :
    mmCols A B sA sB sC N m O d k = d k := by
  induction O with
  | zero => rfl
  | succ o ih =>
    have ho := h o (Nat.lt_succ_self o)
    simp only [mmCols]
    rw [writeBuf_other _ _ _ _ ho.2, writeBuf_other _ _ _ _ ho.1]
    exact ih (fun o' ho' => h o' (Nat.lt_succ_of_lt ho'))

theorem mmCols_get (A B : ℕ → α) (sA sB sC N m : ℕ) {o O : ℕ} (d : ℕ → α)
    (ho : o < O) :
    mmCols A B sA sB sC N m O d ((m * sC + o) * 2)
        = (mmInner A B sA sB m o N).1 ∧
    mmCols A B sA sB sC N m O d ((m * sC + o) * 2 + 1)
        = (mmInner A B sA sB m o N).2 := by
  induction O with
  | zero => exact absurd ho (Nat.not_lt_zero o)
  | succ o' ih =>
    simp only [mmCols]
    rcases Nat.lt_succ_iff_lt_or_eq.mp ho with h1 | h1
    · have e1 : (m * sC + o) * 2 ≠ (m * sC + o') * 2 + 1 := by omega
      have e2 : (m * sC + o) * 2 ≠ (m * sC + o') * 2 := by omega
      have e3 : (m * sC + o) * 2 + 1 ≠ (m * sC + o') * 2 + 1 := by omega
      have e4 : (m * sC + o) * 2 + 1 ≠ (m * sC + o') * 2 := by omega
      rw [writeBuf_other _ _ _ _ e1, writeBuf_other _ _ _ _ e2,
        writeBuf_other _ _ _ _ e3, writeBuf_other _ _ _ _ e4]
      exact ih h1
    · subst h1
      have e5 : (m * sC + o) * 2 ≠ (m * sC + o) * 2 + 1 := by omega
      rw [writeBuf_other _ _ _ _ e5, writeBuf_same, writeBuf_same]
      exact ⟨rfl, rfl⟩

theorem mmRows_frame (A B : ℕ → α) (sA sB sC N O : ℕ) (M : ℕ) (d : ℕ → α)
    (k : ℕ)
    (h : ∀ m < M, ∀ o < O, k ≠ (m * sC + o) * 2 ∧ k ≠ (m * sC + o) * 2 + 1) :
    mmRows A B sA sB sC N O M d k = d k := by
  induction M with
  | zero => rfl
  | succ m ih =>
    simp only [mmRows]
    rw [mmCols_frame A B sA sB sC N m O _ k (h m (Nat.lt_succ_self m))]
    exact ih (fun m' hm' => h m' (Nat.lt_succ_of_lt hm'))

theorem mmRows_get (A B : ℕ → α) (sA sB sC N O : ℕ) {M m o : ℕ} (d : ℕ → α)
    (hO : O ≤ sC) (hm : m < M) (ho : o < O) :
    mmRows A B sA sB sC N O M d ((m * sC + o) * 2)
        = (mmInner A B sA sB m o N).1 ∧
    mmRows A B sA sB sC N O M d ((m * sC + o) * 2 + 1)
        = (mmInner A B sA sB m o N).2 := by
  induction M with
  | zero => exact absurd hm (Nat.not_lt_zero m)
  | succ M' ih =>
    simp only [mmRows]
    rcases Nat.lt_succ_iff_lt_or_eq.mp hm with h1 | h1
    · have hne : ∀ o' < O, (m * sC + o) * 2 ≠ (M' * sC + o') * 2 ∧
          (m * sC + o) * 2 ≠ (M' * sC + o') * 2 + 1 := by
        intro o' ho'
        have := @strideIndex_lt m M' o o' O sC h1 ho hO
        omega
      have hne' : ∀ o' < O, (m * sC + o) * 2 + 1 ≠ (M' * sC + o') * 2 ∧
          (m * sC + o) * 2 + 1 ≠ (M' * sC + o') * 2 + 1 := by
        intro o' ho'
        have := @strideIndex_lt m M' o o' O sC h1 ho hO
        omega
      rw [mmCols_frame A B sA sB sC N M' O _ _ hne,
        mmCols_frame A B sA sB sC N M' O _ _ hne']
      exact ih h1
    · subst h1
      exact mmCols_get A B sA sB sC N m _ ho

theorem mmCols_zero_preserve (A B : ℕ → α) (sA sB sC m : ℕ) (O : ℕ)
    (d : ℕ → α) (k : ℕ) (h : d k = 0) :
    mmCols A B sA sB sC 0 m O d k = 0 := by
  induction O with
  | zero => exact h
  | succ o ih =>
    simp only [mmCols]
    by_cases h1 : k = (m * sC + o) * 2 + 1
    · rw [h1, writeBuf_same]
      rfl
    · rw [writeBuf_other _ _ _ _ h1]
      by_cases h2 : k = (m * sC + o) * 2
      · rw [h2, writeBuf_same]
        rfl
      · rw [writeBuf_other _ _ _ _ h2]
        exact ih

theorem mmCols_zero_get (A B : ℕ → α) (sA sB sC m : ℕ) {o O : ℕ} (d : ℕ → α)
    (ho : o < O) :
    mmCols A B sA sB sC 0 m O d ((m * sC + o) * 2) = 0 ∧
    mmCols A B sA sB sC 0 m O d ((m * sC + o) * 2 + 1) = 0 := by
  induction O with
  | zero => exact absurd ho (Nat.not_lt_zero o)
  | succ o' ih =>
    simp only [mmCols]
    rcases Nat.lt_succ_iff_lt_or_eq.mp ho with h1 | h1
    · have e1 : (m * sC + o) * 2 ≠ (m * sC + o') * 2 + 1 := by omega
      have e2 : (m * sC + o) * 2 ≠ (m * sC + o') * 2 := by omega
      have e3 : (m * sC + o) * 2 + 1 ≠ (m * sC + o') * 2 + 1 := by omega
      have e4 : (m * sC + o) * 2 + 1 ≠ (m * sC + o') * 2 := by omega
      rw [writeBuf_other _ _ _ _ e1, writeBuf_other _ _ _ _ e2,
        writeBuf_other _ _ _ _ e3, writeBuf_other _ _ _ _ e4]
      exact ih h1
    · subst h1
      have e5 : (m * sC + o) * 2 ≠ (m * sC + o) * 2 + 1 := by omega
      rw [writeBuf_other _ _ _ _ e5, writeBuf_same, writeBuf_same]
      exact ⟨rfl, rfl⟩

theorem mmRows_zero_get (A B : ℕ → α) (sA sB sC O : ℕ) {M m o : ℕ}
    (d : ℕ → α) (hm : m < M) (ho : o < O) :
    mmRows A B sA sB sC 0 O M d ((m * sC + o) * 2) = 0 ∧
    mmRows A B sA sB sC 0 O M d ((m * sC + o) * 2 + 1) = 0 := by
  induction M with
  | zero => exact absurd hm (Nat.not_lt_zero m)
  | succ M' ih =>
    simp only [mmRows]
    rcases Nat.lt_succ_iff_lt_or_eq.mp hm with h1 | h1
    · exact ⟨mmCols_zero_preserve A B sA sB sC M' O _ _ (ih h1).1,
        mmCols_zero_preserve A B sA sB sC M' O _ _ (ih h1).2⟩
    · subst h1
      exact mmCols_zero_get A B sA sB sC m _ ho

/-- The set of flat destination offsets the kernel stores to: both scalars of
every complex entry `(m, o)` with `m < M`, `o < O`. -/
def mmWriteOffsets (M O sC : ℕ) : Finset ℕ :=
  (Finset.range M ×ˢ Finset.range O).biUnion
    (fun p => {(p.1 * sC + p.2) * 2, (p.1 * sC + p.2) * 2 + 1})

theorem mem_mmWriteOffsets {M O sC m o : ℕ} (hm : m < M) (ho : o < O) :
    (m * sC + o) * 2 ∈ mmWriteOffsets M O sC ∧
    (m * sC + o) * 2 + 1 ∈ mmWriteOffsets M O sC := by
  have hp : (m, o) ∈ Finset.range M ×ˢ Finset.range O :=
    Finset.mem_product.mpr ⟨Finset.mem_range.mpr hm, Finset.mem_range.mpr ho⟩
  constructor
  · exact Finset.mem_biUnion.mpr ⟨(m, o), hp, Finset.mem_insert_self _ _⟩
  · exact Finset.mem_biUnion.mpr ⟨(m, o), hp,
      Finset.mem_insert.mpr (Or.inr (Finset.mem_singleton_self _))⟩

end MatMultCmplxStride

/-- Concrete 1x1 complex matrix `[[1 + 2i]]` as an interleaved buffer. -/
def bufA12 : ℕ → ℤ := fun k => if k = 0 then 1 else if k = 1 then 2 else 0

/-- Concrete 1x1 complex matrix `[[3 + 4i]]` as an interleaved buffer. -/
def bufB34 : ℕ → ℤ := fun k => if k = 0 then 3 else if k = 1 then 4 else 0

/-- An all-zero buffer. -/
def bufZero : ℕ → ℤ := fun _ => 0

/-- C1: for all dimensions and strides with `strideA ≥ N`, `strideB ≥ O`,
`strideC ≥ O`, the single-core complex strided matrix-multiply kernel writes
into the destination view exactly the reference product: for every `m < M`
and `o < O`, the pair stored at flat offsets `(m * strideC + o) * 2` (real)
and `(m * strideC + o) * 2 + 1` (imaginary) equals the sum over `n < N` of
the complex products `A[m,n] * B[n,o]`, accumulated as
`sum_re += a_re * b_re - a_im * b_im` and `sum_im += a_re * b_im + a_im * b_re`,
with elements addressed at flat offset `(row * stride + col) * 2` (+0 real,
+1 imaginary). -/
theorem mat_mult_cmplx_stride_correct {α : Type} [Add α] [Mul α] [Sub α]
    [Zero α] (A B : ℕ → α) (M N O sA sB sC : ℕ) (d : ℕ → α) (m o : ℕ)
    (hA : N ≤ sA) (hB : O ≤ sB) (hC : O ≤ sC) (hm : m < M) (ho : o < O) :
    plp_mat_mult_cmplx_stride_f32s_xpulpv2 A B M N O sA sB sC d
        ((m * sC + o) * 2) = (matMulCmplxRefEntry A B sA sB m o N).1 ∧
    plp_mat_mult_cmplx_stride_f32s_xpulpv2 A B M N O sA sB sC d
        ((m * sC + o) * 2 + 1) = (matMulCmplxRefEntry A B sA sB m o N).2 := by
  have h := mmRows_get A B sA sB sC N O d hC hm ho
  rwa [mmInner_eq_ref] at h

theorem mat_mult_cmplx_stride_correct_witness :
    plp_mat_mult_cmplx_stride_f32s_xpulpv2 bufA12 bufB34 1 1 1 1 1 1 bufZero
        ((0 * 1 + 0) * 2) = (matMulCmplxRefEntry bufA12 bufB34 1 1 0 0 1).1 ∧
    plp_mat_mult_cmplx_stride_f32s_xpulpv2 bufA12 bufB34 1 1 1 1 1 1 bufZero
        ((0 * 1 + 0) * 2 + 1) = (matMulCmplxRefEntry bufA12 bufB34 1 1 0 0 1).2 :=
  mat_mult_cmplx_stride_correct bufA12 bufB34 1 1 1 1 1 1 bufZero 0 0
    (by decide) (by decide) (by decide) (by decide) (by decide)

/-- C2: for every `M`, `O` and every stride, if `N = 0` the kernel writes
exactly zero (both real and imaginary part) into every one of the `M * O`
output elements; the empty reduction is not an error. -/
theorem mat_mult_cmplx_stride_N_zero {α : Type} [Add α] [Mul α] [Sub α]
    [Zero α] (A B : ℕ → α) (M O sA sB sC : ℕ) (d : ℕ → α) (m o : ℕ)
    (hm : m < M) (ho : o < O) :
    plp_mat_mult_cmplx_stride_f32s_xpulpv2 A B M 0 O sA sB sC d
        ((m * sC + o) * 2) = 0 ∧
    plp_mat_mult_cmplx_stride_f32s_xpulpv2 A B M 0 O sA sB sC d
        ((m * sC + o) * 2 + 1) = 0 :=
  mmRows_zero_get A B sA sB sC O d hm ho

theorem mat_mult_cmplx_stride_N_zero_witness :
    plp_mat_mult_cmplx_stride_f32s_xpulpv2 bufA12 bufB34 2 0 2 3 0 0 bufZero
        ((1 * 0 + 1) * 2) = 0 ∧
    plp_mat_mult_cmplx_stride_f32s_xpulpv2 bufA12 bufB34 2 0 2 3 0 0 bufZero
        ((1 * 0 + 1) * 2 + 1) = 0 :=
  mat_mult_cmplx_stride_N_zero bufA12 bufB34 2 2 3 0 0 bufZero 1 1
    (by decide) (by decide)

/-- C8: for the 1x1 complex inputs `A = [[1 + 2i]]` and `B = [[3 + 4i]]`
with strides equal to the widths, the complex matrix-multiply kernel produces
`C = [[-5 + 10i]]` exactly (real part at flat offset 0, imaginary at 1). -/
theorem mat_mult_cmplx_stride_1x1_example :
    plp_mat_mult_cmplx_stride_f32s_xpulpv2 bufA12 bufB34 1 1 1 1 1 1 bufZero 0
        = -5 ∧
    plp_mat_mult_cmplx_stride_f32s_xpulpv2 bufA12 bufB34 1 1 1 1 1 1 bufZero 1
        = 10 := by
  exact ⟨by decide, by decide⟩

/-- C9: the single-core kernel writes exactly the `M * O` output elements of
the destination view, at flat offsets `(m * strideC + o) * 2` and
`(m * strideC + o) * 2 + 1` for `m < M`, `o < O`, and touches no other
state: every destination location outside that offset set (in particular the
stride padding between logical rows) keeps its prior value.  The source
buffers `A` and `B` are never written: the embedding returns only the new
destination buffer because the C kernel stores through `pDstC` alone.
For `O ≤ strideC` the offset set has exactly `M * O * 2` scalar slots,
i.e. `M * O` complex elements. -/
theorem mat_mult_cmplx_stride_frame {α : Type} [Add α] [Mul α] [Sub α]
    [Zero α] (A B : ℕ → α) (M N O sA sB sC : ℕ) (d : ℕ → α) :
    (∀ k, k ∉ mmWriteOffsets M O sC →
        plp_mat_mult_cmplx_stride_f32s_xpulpv2 A B M N O sA sB sC d k = d k) ∧
    (O ≤ sC → (mmWriteOffsets M O sC).card = M * O * 2) := by
  constructor
  · intro k hk
    apply mmRows_frame
    intro m hm o ho
    have h2 := @mem_mmWriteOffsets M O sC m o hm ho
    exact ⟨fun heq => hk (by rw [heq]; exact h2.1),
      fun heq => hk (by rw [heq]; exact h2.2)⟩
  · intro hO
    rw [mmWriteOffsets, Finset.card_biUnion]
    · have hcard : ∀ p ∈ Finset.range M ×ˢ Finset.range O,
          ({(p.1 * sC + p.2) * 2, (p.1 * sC + p.2) * 2 + 1} : Finset ℕ).card
            = 2 := by
        intro p _
        rw [Finset.card_insert_of_not_mem
          (by simp only [Finset.mem_singleton]; omega), Finset.card_singleton]
      have hsum : (∑ p ∈ Finset.range M ×ˢ Finset.range O,
          ({(p.1 * sC + p.2) * 2, (p.1 * sC + p.2) * 2 + 1} : Finset ℕ).card)
          = ∑ _p ∈ Finset.range M ×ˢ Finset.range O, 2 :=
        Finset.sum_congr rfl hcard
      rw [hsum, Finset.sum_const, Finset.card_product, Finset.card_range,
        Finset.card_range, smul_eq_mul]
    · intro p hp q hq hpq
      simp only [Finset.mem_product, Finset.mem_range] at hp hq
      have hne : p.1 * sC + p.2 ≠ q.1 * sC + q.2 := by
        intro heq
        exact hpq (Prod.ext (strideIndex_inj hp.2 hq.2 hO heq).1
          (strideIndex_inj hp.2 hq.2 hO heq).2)
      rw [Finset.disjoint_left]
      intro x hx hx'
      simp only [Finset.mem_insert, Finset.mem_singleton] at hx hx'
      omega

theorem mat_mult_cmplx_stride_frame_witness :
    plp_mat_mult_cmplx_stride_f32s_xpulpv2 bufA12 bufB34 1 1 1 1 1 2 bufZero 5
        = bufZero 5 ∧
    (mmWriteOffsets 1 1 2).card = 1 * 1 * 2 :=
  ⟨(mat_mult_cmplx_stride_frame bufA12 bufB34 1 1 1 1 1 2 bufZero).1 5
      (by decide),
   (mat_mult_cmplx_stride_frame bufA12 bufB34 1 1 1 1 1 2 bufZero).2
      (by decide)⟩

section MatScaleStride

/-- Row iteration of `plp_mat_scale_stride_f32p_xpulpv2`'s
`for (m = core_id; m < M; m += nPE)` header, step-indexed: with `fuel`
remaining iterations allowed, starting at row `m`, returns the list of rows
the loop visits, or `none` if the loop does not finish within `fuel`
iterations.  The C loop terminates exactly when some finite fuel suffices. -/
def scaleRowsAux (nPE M : ℕ) : ℕ → ℕ → Option (List ℕ)
  | 0, m => if m < M then none else some []
  | fuel + 1, m =>
    if m < M then (scaleRowsAux nPE M fuel (m + nPE)).map (fun L => m :: L)
    else some []

/-- The row loop run by worker `cid` terminates: some finite iteration budget
completes it. -/
def TerminatesScaleLoop (cid nPE M : ℕ) : Prop :=
  ∃ fuel L, scaleRowsAux nPE M fuel cid = some L

/-- The rows visited by worker `cid` (well defined whenever `nPE ≥ 1`,
where `M` iterations always suffice). -/
def scaleRows (cid nPE M : ℕ) : List ℕ :=
  (scaleRowsAux nPE M M cid).getD []

theorem scaleRowsAux_spec (nPE M : ℕ) (hn : 1 ≤ nPE) :
    ∀ fuel m, M ≤ fuel + m → ∃ L, scaleRowsAux nPE M fuel m = some L ∧
      ∀ r, r ∈ L ↔ ∃ j, r = m + j * nPE ∧ r < M := by
  intro fuel
  induction fuel with
  | zero =>
    intro m hm
    have hnot : ¬ m < M := by omega
    refine ⟨[], by simp only [scaleRowsAux, if_neg hnot], ?_⟩
    intro r
    simp only [List.not_mem_nil, false_iff]
    rintro ⟨j, rfl, hr⟩
    omega
  | succ fuel ih =>
    intro m hm
    by_cases hlt : m < M
    · obtain ⟨L, hL, hmem⟩ := ih (m + nPE) (by omega)
      refine ⟨m :: L, by simp only [scaleRowsAux, if_pos hlt, hL, Option.map_some'], ?_⟩
      intro r
      rw [List.mem_cons, hmem]
      constructor
      · rintro (rfl | ⟨j, rfl, hr⟩)
        · exact ⟨0, by omega, hlt⟩
        · exact ⟨j + 1, by rw [Nat.succ_mul]; omega, hr⟩
      · rintro ⟨j, rfl, hr⟩
        rcases j with _ | j
        · exact Or.inl (by omega)
        · exact Or.inr ⟨j, by rw [Nat.succ_mul]; omega, hr⟩
    · refine ⟨[], by simp only [scaleRowsAux, if_neg hlt], ?_⟩
      intro r
      simp only [List.not_mem_nil, false_iff]
      rintro ⟨j, rfl, hr⟩
      omega

theorem scaleRows_mem (cid nPE M : ℕ) (hn : 1 ≤ nPE) (hc : cid < nPE) :
    ∀ r, r ∈ scaleRows cid nPE M ↔ (r < M ∧ r % nPE = cid) := by
  obtain ⟨L, hL, hmem⟩ :=
    scaleRowsAux_spec nPE M hn M cid (Nat.le_add_right M cid)
  intro r
  rw [scaleRows, hL, Option.getD_some, hmem r]
  constructor
  · rintro ⟨j, rfl, hr⟩
    refine ⟨hr, ?_⟩
    rw [Nat.add_mul_mod_self_right]
    exact Nat.mod_eq_of_lt hc
  · rintro ⟨h1, h2⟩
    refine ⟨r / nPE, ?_, h1⟩
    have h3 := Nat.div_add_mod r nPE
    rw [h2, Nat.mul_comm] at h3
    omega

/-- The argument struct `plp_mat_scale_stride_instance_f32` as read by the
kernel: source buffer, dimensions, strides, scale factor and pool size.  The
shared destination buffer (`pDst`) is threaded separately as the mutable
state of the call. -/
structure ScaleStrideArgs (α : Type) where
  pSrc : ℕ → α
  M : ℕ
  N : ℕ
  strideSrc : ℕ
  strideDst : ℕ
  scaleFactor : α
  nPE : ℕ

/-- Inner `n` loop of `plp_mat_scale_stride_f32p_xpulpv2` for row `m`:
`pDst[m * strideDst + n] = pSrc[m * strideSrc + n] * scaleFactor` for
`n < N`. -/
def scaleRowBody {α : Type} [Mul α] (pSrc : ℕ → α) (sS sD : ℕ) (f : α)
    (m : ℕ) : ℕ → (ℕ → α) → (ℕ → α)
  | 0, d => d
  | n + 1, d =>
    writeBuf (scaleRowBody pSrc sS sD f m n d) (m * sD + n)
      (pSrc (m * sS + n) * f)

/-- Kernel `plp_mat_scale_stride_f32p_xpulpv2` (BASIC_VERSION): the worker with id
`core_id` (the value of `rt_core_id()`) scales every row `m` visited by
`for (m = core_id; m < M; m += nPE)`, transforming the shared destination
buffer.  The source buffer is only ever read. -/
def plp_mat_scale_stride_f32p_xpulpv2 {α : Type} [Mul α] (core_id : ℕ)
    (a : ScaleStrideArgs α) (pDst : ℕ → α) : ℕ → α :=
  (scaleRows core_id a.nPE a.M).foldl
    (fun d m =>
      scaleRowBody a.pSrc a.strideSrc a.strideDst a.scaleFactor m a.N d)
    pDst

theorem scaleRowBody_apply {α : Type} [Mul α] (pSrc : ℕ → α) (sS sD : ℕ)
    (f : α) (m : ℕ) :
    ∀ N d k, scaleRowBody pSrc sS sD f m N d k =
      if m * sD ≤ k ∧ k < m * sD + N then pSrc (m * sS + (k - m * sD)) * f
      else d k := by
  intro N
  induction N with
  | zero =>
    intro d k
    have hc : ¬ (m * sD ≤ k ∧ k < m * sD + 0) := by omega
    rw [scaleRowBody, if_neg hc]
  | succ n ih =>
    intro d k
    simp only [scaleRowBody]
    by_cases h1 : k = m * sD + n
    · subst h1
      have hc : m * sD ≤ m * sD + n ∧ m * sD + n < m * sD + (n + 1) := by
        omega
      rw [writeBuf_same, if_pos hc, Nat.add_sub_cancel_left]
    · rw [writeBuf_other _ _ _ _ h1, ih]
      by_cases h2 : m * sD ≤ k ∧ k < m * sD + n
      · have hc : m * sD ≤ k ∧ k < m * sD + (n + 1) := by omega
        rw [if_pos h2, if_pos hc]
      · have hc : ¬ (m * sD ≤ k ∧ k < m * sD + (n + 1)) := by omega
        rw [if_neg h2, if_neg hc]

theorem scaleFold_char {α : Type} [Mul α] (pSrc : ℕ → α) (sS sD N : ℕ)
    (f : α) (hND : N ≤ sD) :
    ∀ (L : List ℕ) (d : ℕ → α) (k : ℕ),
      (L.foldl (fun d m => scaleRowBody pSrc sS sD f m N d) d) k =
      if 0 < sD ∧ k % sD < N ∧ k / sD ∈ L then
        pSrc (k / sD * sS + k % sD) * f
      else d k := by
  intro L
  induction L with
  | nil =>
    intro d k
    have hc : ¬ (0 < sD ∧ k % sD < N ∧ k / sD ∈ ([] : List ℕ)) := by
      rintro ⟨_, _, h⟩
      exact List.not_mem_nil _ h
    rw [List.foldl_nil, if_neg hc]
  | cons m L ih =>
    intro d k
    rw [List.foldl_cons, ih]
    by_cases h1 : 0 < sD ∧ k % sD < N ∧ k / sD ∈ L
    · rw [if_pos h1,
        if_pos ⟨h1.1, h1.2.1, List.mem_cons_of_mem m h1.2.2⟩]
    · rw [if_neg h1, scaleRowBody_apply]
      by_cases h2 : m * sD ≤ k ∧ k < m * sD + N
      · have hsD : 0 < sD := by
          rcases Nat.eq_zero_or_pos sD with h | h
          · subst h
            omega
          · exact h
        have hdiv : k / sD = m := by
          apply Nat.div_eq_of_lt_le
          · omega
          · rw [Nat.succ_mul]
            omega
        have hmod : k % sD = k - m * sD := by
          have h5 : k - m * sD < sD := by omega
          have h6 : k = k - m * sD + m * sD := by omega
          conv_lhs => rw [h6]
          rw [Nat.add_mul_mod_self_right]
          exact Nat.mod_eq_of_lt h5
        have hc : 0 < sD ∧ k % sD < N ∧ k / sD ∈ m :: L :=
          ⟨hsD, by omega, by rw [hdiv]; exact List.mem_cons_self m L⟩
        rw [if_pos h2, if_pos hc, hdiv, hmod]
      · have hc : ¬ (0 < sD ∧ k % sD < N ∧ k / sD ∈ m :: L) := by
          rintro ⟨hs, hkN, hmem⟩
          rcases List.mem_cons.mp hmem with heq | hmemL
          · have h7 := Nat.div_add_mod k sD
            rw [heq, Nat.mul_comm] at h7
            exact h2 ⟨by omega, by omega⟩
          · exact h1 ⟨hs, hkN, hmemL⟩
        rw [if_neg h2, if_neg hc]

theorem scale_kernel_char {α : Type} [Mul α] (cid : ℕ)
    (a : ScaleStrideArgs α) (d : ℕ → α) (hn : 1 ≤ a.nPE) (hc : cid < a.nPE)
    (hND : a.N ≤ a.strideDst) (k : ℕ) :
    plp_mat_scale_stride_f32p_xpulpv2 cid a d k =
      if 0 < a.strideDst ∧ k % a.strideDst < a.N ∧ k / a.strideDst < a.M ∧
          (k / a.strideDst) % a.nPE = cid then
        a.pSrc (k / a.strideDst * a.strideSrc + k % a.strideDst)
          * a.scaleFactor
      else d k := by
  rw [plp_mat_scale_stride_f32p_xpulpv2,
    scaleFold_char a.pSrc a.strideSrc a.strideDst a.N a.scaleFactor hND]
  have hm := scaleRows_mem cid a.nPE a.M hn hc (k / a.strideDst)
  by_cases h1 : 0 < a.strideDst ∧ k % a.strideDst < a.N ∧
      k / a.strideDst ∈ scaleRows cid a.nPE a.M
  · rw [if_pos h1,
      if_pos ⟨h1.1, h1.2.1, (hm.mp h1.2.2).1, (hm.mp h1.2.2).2⟩]
  · rw [if_neg h1,
      if_neg (fun hcon =>
        h1 ⟨hcon.1, hcon.2.1, hm.mpr ⟨hcon.2.2.1, hcon.2.2.2⟩⟩)]

theorem scaleWorkers_char {α : Type} [Mul α] (a : ScaleStrideArgs α)
    (hn : 1 ≤ a.nPE) (hND : a.N ≤ a.strideDst) :
    ∀ (ids : List ℕ), (∀ c ∈ ids, c < a.nPE) → ∀ (d : ℕ → α) (k : ℕ),
      (ids.foldl (fun d c => plp_mat_scale_stride_f32p_xpulpv2 c a d) d) k =
      if 0 < a.strideDst ∧ k % a.strideDst < a.N ∧ k / a.strideDst < a.M ∧
          (k / a.strideDst) % a.nPE ∈ ids then
        a.pSrc (k / a.strideDst * a.strideSrc + k % a.strideDst)
          * a.scaleFactor
      else d k := by
  intro ids
  induction ids with
  | nil =>
    intro _ d k
    have hc : ¬ (0 < a.strideDst ∧ k % a.strideDst < a.N ∧
        k / a.strideDst < a.M ∧
        (k / a.strideDst) % a.nPE ∈ ([] : List ℕ)) := by
      rintro ⟨_, _, _, h⟩
      exact List.not_mem_nil _ h
    rw [List.foldl_nil, if_neg hc]
  | cons c ids ih =>
    intro hall d k
    rw [List.foldl_cons, ih (fun c' hc' => hall c' (List.mem_cons_of_mem c hc'))]
    by_cases h1 : 0 < a.strideDst ∧ k % a.strideDst < a.N ∧
        k / a.strideDst < a.M ∧ (k / a.strideDst) % a.nPE ∈ ids
    · rw [if_pos h1,
        if_pos ⟨h1.1, h1.2.1, h1.2.2.1, List.mem_cons_of_mem c h1.2.2.2⟩]
    · rw [if_neg h1,
        scale_kernel_char c a d hn (hall c (List.mem_cons_self c ids)) hND k]
      by_cases h2 : 0 < a.strideDst ∧ k % a.strideDst < a.N ∧
          k / a.strideDst < a.M ∧ (k / a.strideDst) % a.nPE = c
      · have hc : 0 < a.strideDst ∧ k % a.strideDst < a.N ∧
            k / a.strideDst < a.M ∧ (k / a.strideDst) % a.nPE ∈ c :: ids :=
          ⟨h2.1, h2.2.1, h2.2.2.1,
            by rw [h2.2.2.2]; exact List.mem_cons_self c ids⟩
        rw [if_pos h2, if_pos hc]
      · have hc : ¬ (0 < a.strideDst ∧ k % a.strideDst < a.N ∧
            k / a.strideDst < a.M ∧
            (k / a.strideDst) % a.nPE ∈ c :: ids) := by
          rintro ⟨hs, hkN, hkM, hmem⟩
          rcases List.mem_cons.mp hmem with heq | hmemL
          · exact h2 ⟨hs, hkN, hkM, heq⟩
          · exact h1 ⟨hs, hkN, hkM, hmemL⟩
        rw [if_neg h2, if_neg hc]

end MatScaleStride

/-- C3: the parallel work splitter assigns output rows to the worker with
0-based id `cid` exactly by the strided interleaving
`for (m = cid; m < M; m += nPE)`: the set of rows that worker visits is
`{ r < M | r % nPE = cid }`, not a contiguous block. -/
theorem mat_scale_stride_parallel_rows (M nPE cid : ℕ) (hn : 1 ≤ nPE)
    (hc : cid < nPE) :
    (scaleRows cid nPE M).toFinset
      = (Finset.range M).filter (fun r => r % nPE = cid) := by
  ext r
  simp only [List.mem_toFinset, Finset.mem_filter, Finset.mem_range]
  exact scaleRows_mem cid nPE M hn hc r

theorem mat_scale_stride_parallel_rows_witness :
    (scaleRows 1 2 5).toFinset
      = (Finset.range 5).filter (fun r => r % 2 = 1) :=
  mat_scale_stride_parallel_rows 5 2 1 (by decide) (by decide)

/-- C4: for every `M` and `nPE ≥ 1`, the row sets assigned to distinct
worker ids below `nPE` are pairwise disjoint, and their union over all
worker ids is exactly `[0, M)`; hence no destination row (and so no output
location, the per-row writes being confined to that row's offsets) is
written by two different workers. -/
theorem mat_scale_stride_partition (M nPE : ℕ) (hn : 1 ≤ nPE) :
    (∀ i < nPE, ∀ j < nPE, i ≠ j →
        Disjoint (scaleRows i nPE M).toFinset (scaleRows j nPE M).toFinset) ∧
    (Finset.range nPE).biUnion (fun i => (scaleRows i nPE M).toFinset)
        = Finset.range M := by
  constructor
  · intro i hi j hj hij
    rw [Finset.disjoint_left]
    intro r hri hrj
    rw [List.mem_toFinset] at hri hrj
    have h1 := (scaleRows_mem i nPE M hn hi r).mp hri
    have h2 := (scaleRows_mem j nPE M hn hj r).mp hrj
    omega
  · ext r
    simp only [Finset.mem_biUnion, Finset.mem_range, List.mem_toFinset]
    constructor
    · rintro ⟨i, hi, hr⟩
      exact ((scaleRows_mem i nPE M hn hi r).mp hr).1
    · intro hr
      refine ⟨r % nPE, Nat.mod_lt r hn, ?_⟩
      exact (scaleRows_mem (r % nPE) nPE M hn (Nat.mod_lt r hn) r).mpr
        ⟨hr, rfl⟩

theorem mat_scale_stride_partition_witness :
    (∀ i < 2, ∀ j < 2, i ≠ j →
        Disjoint (scaleRows i 2 5).toFinset (scaleRows j 2 5).toFinset) ∧
    (Finset.range 2).biUnion (fun i => (scaleRows i 2 5).toFinset)
        = Finset.range 5 :=
  mat_scale_stride_partition 5 2 (by decide)

/-- C5: for the same (valid) inputs and every `nPE ≥ 1`, executing the
parallel kernel once per worker id `0 .. nPE - 1` in any order produces a
destination buffer identical to the single-core result, i.e. the `nPE = 1`
execution by worker 0: the partitioning changes only execution assignment,
never any output value.  `N ≤ strideDst` is the spec's matrix-view validity
invariant (`stride ≥ width`), under which distinct rows occupy disjoint
destination offsets. -/
theorem mat_scale_stride_parallel_refines_single {α : Type} [Mul α]
    (a : ScaleStrideArgs α) (d : ℕ → α) (ids : List ℕ) (hn : 1 ≤ a.nPE)
    (hND : a.N ≤ a.strideDst) (hperm : ids.Perm (List.range a.nPE)) :
    ids.foldl (fun d c => plp_mat_scale_stride_f32p_xpulpv2 c a d) d
      = plp_mat_scale_stride_f32p_xpulpv2 0 { a with nPE := 1 } d := by
  funext k
  have hall : ∀ c ∈ ids, c < a.nPE := fun c hc =>
    List.mem_range.mp (hperm.mem_iff.mp hc)
  rw [scaleWorkers_char a hn hND ids hall d k,
    scale_kernel_char 0 { a with nPE := 1 } d (le_refl 1) Nat.one_pos hND k]
  by_cases h2 : 0 < a.strideDst ∧ k % a.strideDst < a.N ∧
      k / a.strideDst < a.M
  · rw [if_pos ⟨h2.1, h2.2.1, h2.2.2,
        hperm.mem_iff.mpr (List.mem_range.mpr (Nat.mod_lt _ hn))⟩,
      if_pos ⟨h2.1, h2.2.1, h2.2.2, Nat.mod_one _⟩]
  · rw [if_neg (fun hcon => h2 ⟨hcon.1, hcon.2.1, hcon.2.2.1⟩),
      if_neg (fun hcon => h2 ⟨hcon.1, hcon.2.1, hcon.2.2.1⟩)]

/-- A concrete argument struct for the scale kernel: `pSrc k = k + 1`,
`M = 3`, `N = 2`, strides 2, scale factor 2, pool size 2. -/
def scaleArgsEx : ScaleStrideArgs ℤ :=
  ⟨fun k => (k : ℤ) + 1, 3, 2, 2, 2, 2, 2⟩

theorem mat_scale_stride_parallel_refines_single_witness :
    [1, 0].foldl (fun d c => plp_mat_scale_stride_f32p_xpulpv2 c scaleArgsEx d)
        bufZero
      = plp_mat_scale_stride_f32p_xpulpv2 0 { scaleArgsEx with nPE := 1 }
        bufZero :=
  mat_scale_stride_parallel_refines_single scaleArgsEx bufZero [1, 0]
    (by decide) (by decide) (by decide)

theorem scaleRowsAux_nPE_zero : ∀ fuel, scaleRowsAux 0 1 fuel 0 = none := by
  intro fuel
  induction fuel with
  | zero => simp [scaleRowsAux]
  | succ fuel ih => simp [scaleRowsAux, ih]

/-- C6 counterexample: the parallel kernel contains no guard against
`nPE = 0`.  With `nPE = 0`, `M = 1` and worker id 0 the row loop
`for (m = 0; m < 1; m += 0)` never advances, so no iteration budget
completes it: the call does not terminate. -/
theorem mat_scale_stride_nPE_zero_diverges : ¬ TerminatesScaleLoop 0 0 1 := by
  rintro ⟨fuel, L, h⟩
  rw [scaleRowsAux_nPE_zero fuel] at h
  exact Option.noConfusion h

/-- C6 (amended): the parallel kernel does not guard against `nPE = 0`
(with `nPE = 0` and worker id below `M` the row loop never terminates);
termination holds for every job descriptor with `nPE ≥ 1`, for every worker
id and every `M`. -/
theorem mat_scale_stride_terminates_of_nPE_pos (cid nPE M : ℕ)
    (hn : 1 ≤ nPE) : TerminatesScaleLoop cid nPE M := by
  obtain ⟨L, hL, _⟩ :=
    scaleRowsAux_spec nPE M hn M cid (Nat.le_add_right M cid)
  exact ⟨M, L, hL⟩

theorem mat_scale_stride_terminates_witness : TerminatesScaleLoop 0 2 5 :=
  mat_scale_stride_terminates_of_nPE_pos 0 2 5 (by decide)

section Dispatcher

/-- The nine arguments of the glue function
`plp_mat_mult_cmplx_stride_i32`: two read-only source buffers, the three
dimensions, the three strides, and the destination pointer (as a buffer). -/
structure MatMultCmplxStrideArgs where
  pSrcA : ℕ → ℤ
  pSrcB : ℕ → ℤ
  M : ℕ
  N : ℕ
  O : ℕ
  strideA : ℕ
  strideB : ℕ
  strideC : ℕ
  pDstC : ℕ → ℤ

/-- The observable effect of the glue code: which single-core kernel variant
it invokes, with which arguments.  The bodies of the two callees
(`plp_mat_mult_cmplx_stride_i32s_rv32im` and
`plp_mat_mult_cmplx_stride_i32s_xpulpv2`) are external to the glue file, so
the dispatcher's behaviour is exactly this selection. -/
inductive MatMultKernelCall where
  | rv32im (args : MatMultCmplxStrideArgs)
  | xpulpv2 (args : MatMultCmplxStrideArgs)

/-- Glue code `plp_mat_mult_cmplx_stride_i32`.  The runtime execution-unit
query `rt_cluster_id()` and the control-core identifier `ARCHI_FC_CID` are
environment values consumed, not owned, by the dispatcher; they are passed
explicitly, so each invocation is a pure function of the freshly queried
identity — nothing is cached between calls. -/
def plp_mat_mult_cmplx_stride_i32 (rt_cluster_id ARCHI_FC_CID : ℕ)
    (a : MatMultCmplxStrideArgs) : MatMultKernelCall :=
  if rt_cluster_id = ARCHI_FC_CID then MatMultKernelCall.rv32im a
  else MatMultKernelCall.xpulpv2 a

end Dispatcher

/-- C7: on every call the dispatcher performs a fresh run-time
execution-unit identity check and selects exactly one of two branches: if
the caller's cluster id equals the control-core identifier it forwards all
nine arguments unchanged to the scalar (`rv32im`) kernel variant, otherwise
it forwards them unchanged to the accelerated (`xpulpv2`) variant.  The
dispatcher is a pure function of the current query result and its
arguments: no other state exists. -/
theorem mat_mult_cmplx_stride_i32_dispatch (cid fcId : ℕ)
    (a : MatMultCmplxStrideArgs) :
    (cid = fcId →
      plp_mat_mult_cmplx_stride_i32 cid fcId a = MatMultKernelCall.rv32im a) ∧
    (cid ≠ fcId →
      plp_mat_mult_cmplx_stride_i32 cid fcId a
        = MatMultKernelCall.xpulpv2 a) := by
  constructor
  · intro h
    rw [plp_mat_mult_cmplx_stride_i32, if_pos h]
  · intro h
    rw [plp_mat_mult_cmplx_stride_i32, if_neg h]

/-- A concrete argument record for the dispatcher. -/
def mmArgsEx : MatMultCmplxStrideArgs :=
  ⟨bufA12, bufB34, 1, 1, 1, 1, 1, 1, bufZero⟩

theorem mat_mult_cmplx_stride_i32_dispatch_witness :
    plp_mat_mult_cmplx_stride_i32 32 32 mmArgsEx
        = MatMultKernelCall.rv32im mmArgsEx ∧
    plp_mat_mult_cmplx_stride_i32 0 32 mmArgsEx
        = MatMultKernelCall.xpulpv2 mmArgsEx :=
  ⟨(mat_mult_cmplx_stride_i32_dispatch 32 32 mmArgsEx).1 rfl,
   (mat_mult_cmplx_stride_i32_dispatch 0 32 mmArgsEx).2 (by decide)⟩

section CmplxDotProd

/-- Two's-complement wrap of an integer to the signed 32-bit accumulator
width, as performed by the target's `int32_t` arithmetic. -/
def wrap32 (x : ℤ) : ℤ := (x + 2 ^ 31) % 2 ^ 32 - 2 ^ 31

/-- Two's-complement narrowing of an integer to the signed 16-bit output
width (the low 16 bits, reinterpreted as signed), as performed by the
stores `*realResult = real_sum` and `*imagResult = imag_sum`. -/
def toInt16 (x : ℤ) : ℤ := (x + 2 ^ 15) % 2 ^ 16 - 2 ^ 15

/-- Intrinsic `__DOTP2`: dot product of two `v2s` vectors with 32-bit wrapping. -/
def dotp2 (a b : ℤ × ℤ) : ℤ := wrap32 (a.1 * b.1 + a.2 * b.2)

/-- Intrinsic `__SUMDOTP2`: dot product of two `v2s` vectors accumulated onto a
running 32-bit sum, wrapping. -/
def sumdotp2 (a b : ℤ × ℤ) (acc : ℤ) : ℤ :=
  wrap32 (acc + a.1 * b.1 + a.2 * b.2)

/-- A `v2s` load `*((v2s *)&(p[k]))`: the two 16-bit lanes `p[k]`,
`p[k+1]`. -/
def v2sLoad (p : ℕ → ℤ) (k : ℕ) : ℤ × ℤ := (p k, p (k + 1))

/-- The SIMD main loop of `plp_cmplx_dot_prod_i16_xpulpv2`: accumulator
pair `(real_sum, imag_sum)` after `i` iterations, each iteration shuffling
two complex samples (`ab`, `ef` from A, `cd`, `gh` from B) and accumulating
with `__SUMDOTP2`/`__DOTP2`. -/
def cmplx_dot_loop (A B : ℕ → ℤ) : ℕ → ℤ × ℤ
  | 0 => (0, 0)
  | i + 1 =>
    let s := cmplx_dot_loop A B i
    let ab := v2sLoad A (4 * i)
    let ef := v2sLoad A (4 * i + 2)
    let cd := v2sLoad B (4 * i)
    let gh := v2sLoad B (4 * i + 2)
    let bf := (ab.2, ef.2)
    let dh := (cd.2, gh.2)
    let ae := (ab.1, ef.1)
    let cg := (cd.1, gh.1)
    let re1 := sumdotp2 ae cg s.1
    let re2 := wrap32 (re1 - dotp2 bf dh)
    let dc := (cd.2, cd.1)
    let hg := (gh.2, gh.1)
    let im1 := sumdotp2 ab dc s.2
    let im2 := sumdotp2 ef hg im1
    (re2, im2)

/-- Kernel `plp_cmplx_dot_prod_i16_xpulpv2`: runs the SIMD loop for
`numSamples / 2` iterations, handles one trailing complex sample when
`numSamples` is odd, and stores the two accumulators narrowed to the 16-bit
output width. -/
def plp_cmplx_dot_prod_i16_xpulpv2 (A B : ℕ → ℤ) (numSamples : ℕ) : ℤ × ℤ :=
  let loopEnd := numSamples / 2
  let s := cmplx_dot_loop A B loopEnd
  let s2 :=
    if numSamples % 2 = 1 then
      (wrap32 (s.1 + (A (4 * loopEnd) * B (4 * loopEnd)
          - A (4 * loopEnd + 1) * B (4 * loopEnd + 1))),
       wrap32 (s.2 + (A (4 * loopEnd) * B (4 * loopEnd + 1)
          + A (4 * loopEnd + 1) * B (4 * loopEnd))))
    else s
  (toInt16 s2.1, toInt16 s2.2)

/-- Exact real part of the complex dot product, from the documented
algorithm: `realResult += pSrcA[2n] * pSrcB[2n] - pSrcA[2n+1] * pSrcB[2n+1]`
over all samples. -/
def cmplxDotRefRe (A B : ℕ → ℤ) (ns : ℕ) : ℤ :=
  ∑ n ∈ Finset.range ns,
    (A (2 * n) * B (2 * n) - A (2 * n + 1) * B (2 * n + 1))

/-- Exact imaginary part of the complex dot product, from the documented
algorithm: `imagResult += pSrcA[2n] * pSrcB[2n+1] + pSrcA[2n+1] * pSrcB[2n]`
over all samples. -/
def cmplxDotRefIm (A B : ℕ → ℤ) (ns : ℕ) : ℤ :=
  ∑ n ∈ Finset.range ns,
    (A (2 * n) * B (2 * n + 1) + A (2 * n + 1) * B (2 * n))

theorem wrap32_modEq (x : ℤ) : wrap32 x ≡ x [ZMOD (2 ^ 32)] := by
  have h1 : (x + 2 ^ 31) % 2 ^ 32 ≡ x + 2 ^ 31 [ZMOD (2 ^ 32)] :=
    Int.emod_emod_of_dvd _ dvd_rfl
  have h2 := h1.sub_right (2 ^ 31)
  simpa [wrap32] using h2

theorem toInt16_congr {x y : ℤ} (h : x ≡ y [ZMOD (2 ^ 16)]) :
    toInt16 x = toInt16 y := by
  have h3 : (x + 2 ^ 15) % 2 ^ 16 = (y + 2 ^ 15) % 2 ^ 16 := h.add_right _
  rw [toInt16, toInt16, h3]

theorem modEq16_of_modEq32 {x y : ℤ} (h : x ≡ y [ZMOD (2 ^ 32)]) :
    x ≡ y [ZMOD (2 ^ 16)] :=
  h.of_dvd ⟨2 ^ 16, by norm_num⟩

theorem cmplx_dot_loop_modEq (A B : ℕ → ℤ) :
    ∀ i, (cmplx_dot_loop A B i).1 ≡ cmplxDotRefRe A B (2 * i)
        [ZMOD (2 ^ 32)] ∧
      (cmplx_dot_loop A B i).2 ≡ cmplxDotRefIm A B (2 * i) [ZMOD (2 ^ 32)] := by
  intro i
  induction i with
  | zero =>
    constructor <;> exact Int.ModEq.refl 0
  | succ i ih =>
    have e1 : 2 * (i + 1) = 2 * i + 1 + 1 := by ring
    have i1 : 2 * (2 * i) = 4 * i := by ring
    have i3 : 2 * (2 * i + 1) = 4 * i + 2 := by ring
    have hRe : cmplxDotRefRe A B (2 * (i + 1))
        = cmplxDotRefRe A B (2 * i)
          + (A (4 * i) * B (4 * i) - A (4 * i + 1) * B (4 * i + 1))
          + (A (4 * i + 2) * B (4 * i + 2)
            - A (4 * i + 3) * B (4 * i + 3)) := by
      simp only [cmplxDotRefRe, e1, Finset.sum_range_succ]
      rw [i1, i3]
    have hIm : cmplxDotRefIm A B (2 * (i + 1))
        = cmplxDotRefIm A B (2 * i)
          + (A (4 * i) * B (4 * i + 1) + A (4 * i + 1) * B (4 * i))
          + (A (4 * i + 2) * B (4 * i + 3)
            + A (4 * i + 3) * B (4 * i + 2)) := by
      simp only [cmplxDotRefIm, e1, Finset.sum_range_succ]
      rw [i1, i3]
    constructor
    · simp only [cmplx_dot_loop, v2sLoad, sumdotp2, dotp2]
      rw [hRe]
      have h1 : wrap32 ((cmplx_dot_loop A B i).1 + A (4 * i) * B (4 * i)
            + A (4 * i + 2) * B (4 * i + 2))
          ≡ cmplxDotRefRe A B (2 * i) + A (4 * i) * B (4 * i)
            + A (4 * i + 2) * B (4 * i + 2) [ZMOD (2 ^ 32)] :=
        (wrap32_modEq _).trans ((ih.1.add_right _).add_right _)
      have h2 : wrap32 (A (4 * i + 1) * B (4 * i + 1)
            + A (4 * i + 3) * B (4 * i + 3))
          ≡ A (4 * i + 1) * B (4 * i + 1) + A (4 * i + 3) * B (4 * i + 3)
            [ZMOD (2 ^ 32)] := wrap32_modEq _
      have h3 := (wrap32_modEq _).trans (h1.sub h2)
      have he : cmplxDotRefRe A B (2 * i) + A (4 * i) * B (4 * i)
            + A (4 * i + 2) * B (4 * i + 2)
            - (A (4 * i + 1) * B (4 * i + 1)
              + A (4 * i + 3) * B (4 * i + 3))
          = cmplxDotRefRe A B (2 * i)
            + (A (4 * i) * B (4 * i) - A (4 * i + 1) * B (4 * i + 1))
            + (A (4 * i + 2) * B (4 * i + 2)
              - A (4 * i + 3) * B (4 * i + 3)) := by ring
      exact he ▸ h3
    · simp only [cmplx_dot_loop, v2sLoad, sumdotp2, dotp2]
      rw [hIm]
      have h1 : wrap32 ((cmplx_dot_loop A B i).2
            + A (4 * i) * B (4 * i + 1) + A (4 * i + 1) * B (4 * i))
          ≡ cmplxDotRefIm A B (2 * i) + A (4 * i) * B (4 * i + 1)
            + A (4 * i + 1) * B (4 * i) [ZMOD (2 ^ 32)] :=
        (wrap32_modEq _).trans ((ih.2.add_right _).add_right _)
      have h2 := (wrap32_modEq _).trans ((h1.add_right
          (A (4 * i + 2) * B (4 * i + 3))).add_right
          (A (4 * i + 3) * B (4 * i + 2)))
      have he : cmplxDotRefIm A B (2 * i) + A (4 * i) * B (4 * i + 1)
            + A (4 * i + 1) * B (4 * i) + A (4 * i + 2) * B (4 * i + 3)
            + A (4 * i + 3) * B (4 * i + 2)
          = cmplxDotRefIm A B (2 * i)
            + (A (4 * i) * B (4 * i + 1) + A (4 * i + 1) * B (4 * i))
            + (A (4 * i + 2) * B (4 * i + 3)
              + A (4 * i + 3) * B (4 * i + 2)) := by ring
      exact he ▸ h2

end CmplxDotProd

/-- C10: in the 16-bit complex dot product, the real and imaginary results
delivered through the output pointers are the exact accumulated sums
narrowed to the signed 16-bit output width (low 16 bits): for every
`numSamples` (even or odd), the value stored equals the exact integer sum
over all samples of `a_re * b_re - a_im * b_im` (respectively
`a_re * b_im + a_im * b_re`) reduced modulo `2^16` into the signed range —
the 32-bit wrap of the accumulator is invisible modulo `2^16`. -/
theorem cmplx_dot_prod_i16_exact (A B : ℕ → ℤ) (numSamples : ℕ) :
    plp_cmplx_dot_prod_i16_xpulpv2 A B numSamples
      = (toInt16 (cmplxDotRefRe A B numSamples),
         toInt16 (cmplxDotRefIm A B numSamples)) := by
  have hloop := cmplx_dot_loop_modEq A B (numSamples / 2)
  simp only [plp_cmplx_dot_prod_i16_xpulpv2]
  rcases Nat.even_or_odd numSamples with he | ho
  · have h0 : ¬ (numSamples % 2 = 1) := by
      rcases he with ⟨k, hk⟩
      omega
    have h2 : 2 * (numSamples / 2) = numSamples := by
      rcases he with ⟨k, hk⟩
      omega
    rw [h2] at hloop
    simp only [if_neg h0]
    rw [Prod.mk.injEq]
    exact ⟨toInt16_congr (modEq16_of_modEq32 hloop.1),
      toInt16_congr (modEq16_of_modEq32 hloop.2)⟩
  · have h1 : numSamples % 2 = 1 := Nat.odd_iff.mp ho
    have h2 : 2 * (numSamples / 2) + 1 = numSamples := by omega
    have iq : 2 * (2 * (numSamples / 2)) = 4 * (numSamples / 2) := by ring
    have hsumRe : cmplxDotRefRe A B numSamples
        = cmplxDotRefRe A B (2 * (numSamples / 2))
          + (A (4 * (numSamples / 2)) * B (4 * (numSamples / 2))
            - A (4 * (numSamples / 2) + 1)
              * B (4 * (numSamples / 2) + 1)) := by
      conv_lhs => rw [← h2]
      simp only [cmplxDotRefRe, Finset.sum_range_succ]
      rw [iq]
    have hsumIm : cmplxDotRefIm A B numSamples
        = cmplxDotRefIm A B (2 * (numSamples / 2))
          + (A (4 * (numSamples / 2)) * B (4 * (numSamples / 2) + 1)
            + A (4 * (numSamples / 2) + 1)
              * B (4 * (numSamples / 2))) := by
      conv_lhs => rw [← h2]
      simp only [cmplxDotRefIm, Finset.sum_range_succ]
      rw [iq]
    simp only [if_pos h1]
    rw [Prod.mk.injEq, hsumRe, hsumIm]
    constructor
    · exact toInt16_congr (modEq16_of_modEq32
        ((wrap32_modEq _).trans (hloop.1.add_right _)))
    · exact toInt16_congr (modEq16_of_modEq32
        ((wrap32_modEq _).trans (hloop.2.add_right _)))
